import Mathlib

/-!
Verification of `fix_compression.py`, a compression normalizer: it lists a
directory, keeps the entries whose name ends in `.frag`, reads each such
file's first two bytes, and rewrites through a gzip stream any file whose
header differs from the gzip magic number 0x1F 0x8B.

The filesystem is embedded as a directory listing: a list of entries, each an
entry name paired with its raw byte content, in enumeration order.  Console
output is embedded as the list of printed lines.
-/

namespace FixCompression

/-- Byte strings: lists of byte values. -/
abbrev Bytes := List Nat

/-- One directory entry: a file name and its raw byte content. -/
structure DirEntry where
  name : String
  content : Bytes
deriving DecidableEq, Repr

/-- A directory listing, in the order the enumeration API returns it. -/
abbrev Dir := List DirEntry

/-- The hardcoded target directory path (line 6 of the source). -/
def models_dir : String := "VSR_IFC/public/models"

/-- The gzip magic number, the two bytes 0x1F 0x8B (line 18). -/
def gzipMagic : Bytes := [0x1f, 0x8b]

/-- Modelled from the spec: Python's `gzip` module is not part of the
repository; the spec describes its output as "the gzip container format
(magic bytes 0x1F 0x8B, followed by a standard deflate-compressed member)"
from which decompression "yields exactly the original pre-normalization byte
content".  The deflate encoding itself is opaque to the program, which only
ever inspects the two magic bytes, so the member is modelled as the raw
payload: the model keeps the two properties the spec states (the output
begins with the magic bytes, and decompression is a left inverse). -/
def gzipCompress (d : Bytes) : Bytes := 0x1f :: 0x8b :: d

/-- Modelled from the spec: decompression of the modelled gzip container,
recovering the member payload after the two magic bytes. -/
def gzipDecompress (g : Bytes) : Bytes := g.drop 2

/-- The candidate filter (line 11): `filename.endswith('.frag')`, a
case-sensitive exact suffix match on the character sequence of the name. -/
def isCandidate (filename : String) : Bool := ".frag".data.isSuffixOf filename.data

/-- The startup line (line 8). -/
def startupLine : String := "Checking models in " ++ models_dir ++ "..."

/-- The already-gzipped status line (line 19). -/
def okLine (filename : String) : String :=
  "[OK] " ++ filename ++ " is already gzipped."

/-- The needs-fixing status line (line 21). -/
def fixLine (filename : String) : String :=
  "[FIX] " ++ filename ++ " is NOT gzipped. Compressing..."

/-- The compressed confirmation line (line 31). -/
def compressedLine (filename : String) : String :=
  "      Compressed " ++ filename

/-- The completion line (line 33). -/
def doneLine : String := "Done."

/-- The per-candidate body of the loop (lines 14-31): read the first two
bytes (`f.read(2)` returns the whole content when it is shorter than two
bytes, with no error), compare with the magic number, and either leave the
content alone and print the OK line, or rewrite the content through the gzip
stream and print the FIX and Compressed lines.  Returns the file's new
content and the lines printed. -/
def processFile (filename : String) (content : Bytes) : Bytes × List String :=
  let header := content.take 2
  if header = gzipMagic then
    (content, [okLine filename])
  else
    (gzipCompress content, [fixLine filename, compressedLine filename])

/-- The effect of one loop iteration on one directory entry: candidates are
processed by `processFile`, everything else is skipped by the line-11 filter
and left untouched. -/
def normEntry (e : DirEntry) : DirEntry :=
  if isCandidate e.name then
    { name := e.name, content := (processFile e.name e.content).1 }
  else e

/-- The printed lines one loop iteration contributes for one entry. -/
def entryLines (e : DirEntry) : List String :=
  if isCandidate e.name then (processFile e.name e.content).2 else []

/-- The `for` loop over the listing (lines 10-31): returns the directory's
final state, positionally, together with the lines printed. -/
def runLoop : Dir → Dir × List String
  | [] => ([], [])
  | e :: rest =>
    if isCandidate e.name then
      let (c, out) := processFile e.name e.content
      let (d, outs) := runLoop rest
      ({ name := e.name, content := c } :: d, out ++ outs)
    else
      let (d, outs) := runLoop rest
      (e :: d, outs)

/-- The whole program (lines 8-33): startup line, the loop, completion
line.  Returns the final directory state and the full console output. -/
def normalize (d : Dir) : Dir × List String :=
  let (d', outs) := runLoop d
  (d', startupLine :: (outs ++ [doneLine]))

/-- The final directory state of a run. -/
def runDir (d : Dir) : Dir := (normalize d).1

/-- The console output of a run. -/
def runOutput (d : Dir) : List String := (normalize d).2

-- Basic characterization lemmas.

@[simp] theorem runLoop_nil : runLoop [] = ([], []) := rfl

theorem runLoop_cons (e : DirEntry) (rest : Dir) :
    runLoop (e :: rest) =
      (normEntry e :: (runLoop rest).1, entryLines e ++ (runLoop rest).2) := by
  by_cases h : isCandidate e.name
  · simp [runLoop, normEntry, entryLines, h]
  · simp [runLoop, normEntry, entryLines, h]

theorem runDir_eq_map (d : Dir) : runDir d = d.map normEntry := by
  induction d with
  | nil => rfl
  | cons e rest ih =>
    simp only [runDir, normalize] at ih ⊢
    rw [runLoop_cons]
    simpa using ih

theorem runDir_length (d : Dir) : (runDir d).length = d.length := by
  rw [runDir_eq_map]; exact List.length_map _ _

theorem runDir_get (d : Dir) (i : Fin d.length) :
    (runDir d).get (Fin.cast (runDir_length d).symm i) = normEntry (d.get i) := by
  simp [runDir_eq_map]

theorem runLoop_out_eq (d : Dir) : (runLoop d).2 = d.flatMap entryLines := by
  induction d with
  | nil => rfl
  | cons e rest ih => rw [runLoop_cons]; simp [ih]

theorem runOutput_eq (d : Dir) :
    runOutput d = startupLine :: (d.flatMap entryLines ++ [doneLine]) := by
  simp only [runOutput, normalize]
  rw [runLoop_out_eq]

theorem mem_runOutput (d : Dir) (e : DirEntry) (he : e ∈ d) (s : String)
    (hs : s ∈ entryLines e) : s ∈ runOutput d := by
  rw [runOutput_eq]
  exact List.mem_cons_of_mem _ (List.mem_append_left _ (List.mem_flatMap.mpr ⟨e, he, hs⟩))

theorem normEntry_skip (e : DirEntry) (h : ¬ isCandidate e.name = true) :
    normEntry e = e := by
  simp [normEntry, h]

theorem normEntry_magic (e : DirEntry) (hc : isCandidate e.name = true)
    (hm : e.content.take 2 = gzipMagic) : normEntry e = e := by
  simp [normEntry, hc, processFile, hm]

theorem normEntry_fix (e : DirEntry) (hc : isCandidate e.name = true)
    (hm : ¬ e.content.take 2 = gzipMagic) :
    normEntry e = { name := e.name, content := gzipCompress e.content } := by
  simp [normEntry, hc, processFile, hm]

theorem entryLines_skip (e : DirEntry) (h : ¬ isCandidate e.name = true) :
    entryLines e = [] := by
  simp [entryLines, h]

theorem entryLines_magic (e : DirEntry) (hc : isCandidate e.name = true)
    (hm : e.content.take 2 = gzipMagic) : entryLines e = [okLine e.name] := by
  simp [entryLines, hc, processFile, hm]

theorem entryLines_fix (e : DirEntry) (hc : isCandidate e.name = true)
    (hm : ¬ e.content.take 2 = gzipMagic) :
    entryLines e = [fixLine e.name, compressedLine e.name] := by
  simp [entryLines, hc, processFile, hm]

theorem runDir_candidate_magic (d : Dir) (e : DirEntry) (he : e ∈ runDir d)
    (hc : isCandidate e.name = true) : e.content.take 2 = gzipMagic := by
  rw [runDir_eq_map] at he
  obtain ⟨x, _, rfl⟩ := List.mem_map.mp he
  by_cases hx : isCandidate x.name = true
  · by_cases hm : x.content.take 2 = gzipMagic
    · rw [normEntry_magic x hx hm]
      exact hm
    · rw [normEntry_fix x hx hm]
      rfl
  · rw [normEntry_skip x hx] at hc
    exact absurd hc hx

/-- C1: for every candidate file (name ending in `.frag`) whose first two
bytes differ from 0x1F 0x8B, after the normalizer runs the file (same
position, same name) begins with 0x1F 0x8B and gzip-decompressing its new
content yields exactly the byte content it had before the run. -/
theorem c1_fix_correctness (d : Dir) (i : Fin d.length)
    (hc : isCandidate (d.get i).name = true)
    (hm : (d.get i).content.take 2 ≠ gzipMagic) :
    ((runDir d).get (Fin.cast (runDir_length d).symm i)).name = (d.get i).name ∧
    ((runDir d).get (Fin.cast (runDir_length d).symm i)).content.take 2 = gzipMagic ∧
    gzipDecompress ((runDir d).get (Fin.cast (runDir_length d).symm i)).content
      = (d.get i).content := by
  rw [runDir_get, normEntry_fix (d.get i) hc hm]
  exact ⟨rfl, rfl, rfl⟩

theorem c1_fix_correctness_witness :
    isCandidate (([⟨"mesh.frag", [1, 2, 3]⟩] : Dir).get ⟨0, by decide⟩).name = true ∧
    (([⟨"mesh.frag", [1, 2, 3]⟩] : Dir).get ⟨0, by decide⟩).content.take 2 ≠ gzipMagic ∧
    (((runDir [⟨"mesh.frag", [1, 2, 3]⟩]).get
        (Fin.cast (runDir_length [⟨"mesh.frag", [1, 2, 3]⟩]).symm ⟨0, by decide⟩)).name
        = (([⟨"mesh.frag", [1, 2, 3]⟩] : Dir).get ⟨0, by decide⟩).name ∧
      ((runDir [⟨"mesh.frag", [1, 2, 3]⟩]).get
        (Fin.cast (runDir_length [⟨"mesh.frag", [1, 2, 3]⟩]).symm ⟨0, by decide⟩)).content.take 2
        = gzipMagic ∧
      gzipDecompress ((runDir [⟨"mesh.frag", [1, 2, 3]⟩]).get
        (Fin.cast (runDir_length [⟨"mesh.frag", [1, 2, 3]⟩]).symm ⟨0, by decide⟩)).content
        = (([⟨"mesh.frag", [1, 2, 3]⟩] : Dir).get ⟨0, by decide⟩).content) :=
  ⟨by decide, by decide,
    c1_fix_correctness [⟨"mesh.frag", [1, 2, 3]⟩] ⟨0, by decide⟩ (by decide) (by decide)⟩

/-- C2: for every candidate file whose first two bytes equal 0x1F 0x8B, the
normalizer leaves the entry (name and byte content) completely unchanged and
the console output contains the `[OK] <name> is already gzipped.` line. -/
theorem c2_ok_branch (d : Dir) (i : Fin d.length)
    (hc : isCandidate (d.get i).name = true)
    (hm : (d.get i).content.take 2 = gzipMagic) :
    (runDir d).get (Fin.cast (runDir_length d).symm i) = d.get i ∧
    okLine (d.get i).name ∈ runOutput d := by
  constructor
  · rw [runDir_get, normEntry_magic (d.get i) hc hm]
  · refine mem_runOutput d (d.get i) (List.get_mem d i.1 i.2) _ ?_
    rw [entryLines_magic (d.get i) hc hm]
    exact List.mem_singleton.mpr rfl

theorem c2_ok_branch_witness :
    isCandidate (([⟨"a.frag", [0x1f, 0x8b, 7]⟩] : Dir).get ⟨0, by decide⟩).name = true ∧
    (([⟨"a.frag", [0x1f, 0x8b, 7]⟩] : Dir).get ⟨0, by decide⟩).content.take 2 = gzipMagic ∧
    ((runDir [⟨"a.frag", [0x1f, 0x8b, 7]⟩]).get
        (Fin.cast (runDir_length [⟨"a.frag", [0x1f, 0x8b, 7]⟩]).symm ⟨0, by decide⟩)
        = ([⟨"a.frag", [0x1f, 0x8b, 7]⟩] : Dir).get ⟨0, by decide⟩ ∧
      okLine (([⟨"a.frag", [0x1f, 0x8b, 7]⟩] : Dir).get ⟨0, by decide⟩).name
        ∈ runOutput [⟨"a.frag", [0x1f, 0x8b, 7]⟩]) :=
  ⟨by decide, by decide,
    c2_ok_branch [⟨"a.frag", [0x1f, 0x8b, 7]⟩] ⟨0, by decide⟩ (by decide) (by decide)⟩

/-- C3: after a complete run, every candidate file in the resulting
directory state begins with the gzip magic bytes 0x1F 0x8B. -/
theorem c3_final_invariant (d : Dir) (e : DirEntry) (he : e ∈ runDir d)
    (hc : isCandidate e.name = true) : e.content.take 2 = gzipMagic :=
  runDir_candidate_magic d e he hc

theorem c3_final_invariant_witness :
    (⟨"m.frag", [0x1f, 0x8b, 1]⟩ : DirEntry) ∈ runDir [⟨"m.frag", [0x1f, 0x8b, 1]⟩, ⟨"n.frag", [9]⟩] ∧
    isCandidate "m.frag" = true ∧
    ([(0x1f : Nat), 0x8b, 1] : Bytes).take 2 = gzipMagic :=
  ⟨by decide, by decide,
    c3_final_invariant [⟨"m.frag", [0x1f, 0x8b, 1]⟩, ⟨"n.frag", [9]⟩]
      ⟨"m.frag", [0x1f, 0x8b, 1]⟩ (by decide) (by decide)⟩

/-- C10: for every candidate file shorter than 2 bytes, the 2-byte header
read returns the short byte string without any error, the short header
compares unequal to 0x1F 0x8B, so the file is classified as not gzipped and
is gzip-compressed in place; decompressing the result recovers the short
content (a zero-byte file becomes a gzip wrapping of zero bytes). -/
theorem c10_short_file (filename : String) (content : Bytes)
    (h : content.length < 2) :
    processFile filename content
      = (gzipCompress content, [fixLine filename, compressedLine filename]) ∧
    gzipDecompress (gzipCompress content) = content := by
  have hne : content.take 2 ≠ gzipMagic := by
    intro hEq
    have hlen := congrArg List.length hEq
    simp only [List.length_take, gzipMagic, List.length_cons, List.length_nil] at hlen
    omega
  exact ⟨by simp [processFile, hne], by simp [gzipCompress, gzipDecompress]⟩

theorem c10_short_file_witness :
    ([] : Bytes).length < 2 ∧
    (processFile "empty.frag" []
      = (gzipCompress [], [fixLine "empty.frag", compressedLine "empty.frag"]) ∧
     gzipDecompress (gzipCompress []) = ([] : Bytes)) :=
  ⟨by decide, c10_short_file "empty.frag" [] (by decide)⟩

theorem normEntry_idem (e : DirEntry) : normEntry (normEntry e) = normEntry e := by
  by_cases hc : isCandidate e.name = true
  · by_cases hm : e.content.take 2 = gzipMagic
    · rw [normEntry_magic e hc hm, normEntry_magic e hc hm]
    · rw [normEntry_fix e hc hm]
      exact normEntry_magic _ hc rfl
  · rw [normEntry_skip e hc, normEntry_skip e hc]

/-- C4: the normalizer is idempotent: a second run produces the same final
byte content for every file as a single run, and on the content produced by
the first run every candidate file's per-file step takes the
already-compressed branch, leaving the content unmutated and printing only
the OK line. -/
theorem c4_idempotence (d : Dir) :
    runDir (runDir d) = runDir d ∧
    ∀ e ∈ runDir d, isCandidate e.name = true →
      processFile e.name e.content = (e.content, [okLine e.name]) := by
  constructor
  · rw [runDir_eq_map d, runDir_eq_map, List.map_map]
    exact List.map_congr_left fun e _ => normEntry_idem e
  · intro e he hc
    have hm := runDir_candidate_magic d e he hc
    simp [processFile, hm]

theorem c4_idempotence_witness :
    runDir (runDir [⟨"w.frag", [5]⟩]) = runDir [⟨"w.frag", [5]⟩] ∧
    (⟨"w.frag", gzipCompress [5]⟩ : DirEntry) ∈ runDir [⟨"w.frag", [5]⟩] ∧
    isCandidate "w.frag" = true ∧
    processFile "w.frag" (gzipCompress [5]) = (gzipCompress [5], [okLine "w.frag"]) :=
  ⟨(c4_idempotence [⟨"w.frag", [5]⟩]).1, by decide, by decide,
   (c4_idempotence [⟨"w.frag", [5]⟩]).2 ⟨"w.frag", gzipCompress [5]⟩ (by decide) (by decide)⟩

theorem flatMap_entryLines_filter (d : Dir) :
    (d.filter fun e => isCandidate e.name).flatMap entryLines
      = d.flatMap entryLines := by
  induction d with
  | nil => rfl
  | cons e rest ih =>
    by_cases hc : isCandidate e.name = true
    · simp [List.filter_cons, hc, ih]
    · simp [List.filter_cons, hc, ih, entryLines_skip e hc]

/-- C6: an entry whose name does not end in `.frag` is never modified (it is
returned unchanged at its position) and is never read: the console output
equals the output of a run over the listing with every non-candidate entry
removed, so nothing about a non-candidate influences the run. -/
theorem c6_scope_restriction (d : Dir) (i : Fin d.length)
    (h : ¬ isCandidate (d.get i).name = true) :
    (runDir d).get (Fin.cast (runDir_length d).symm i) = d.get i ∧
    runOutput d = runOutput (d.filter fun e => isCandidate e.name) := by
  constructor
  · rw [runDir_get, normEntry_skip _ h]
  · rw [runOutput_eq, runOutput_eq, flatMap_entryLines_filter]

theorem c6_scope_restriction_witness :
    ¬ isCandidate (([⟨"readme.txt", [5]⟩, ⟨"a.frag", []⟩] : Dir).get ⟨0, by decide⟩).name = true ∧
    ((runDir [⟨"readme.txt", [5]⟩, ⟨"a.frag", []⟩]).get
        (Fin.cast (runDir_length [⟨"readme.txt", [5]⟩, ⟨"a.frag", []⟩]).symm ⟨0, by decide⟩)
        = ([⟨"readme.txt", [5]⟩, ⟨"a.frag", []⟩] : Dir).get ⟨0, by decide⟩ ∧
     runOutput [⟨"readme.txt", [5]⟩, ⟨"a.frag", []⟩]
        = runOutput (([⟨"readme.txt", [5]⟩, ⟨"a.frag", []⟩] : Dir).filter
            fun e => isCandidate e.name)) :=
  ⟨by decide,
   c6_scope_restriction [⟨"readme.txt", [5]⟩, ⟨"a.frag", []⟩] ⟨0, by decide⟩ (by decide)⟩

/-- The output forms as the spec words them, stated independently of the
loop: for each entry, a candidate contributes either the single OK line or
the FIX line followed by the Compressed line, a non-candidate contributes
nothing. -/
def claimedEntryLines (e : DirEntry) : List String :=
  if isCandidate e.name then
    if e.content.take 2 = gzipMagic then [okLine e.name]
    else [fixLine e.name, compressedLine e.name]
  else []

/-- The spec's claimed console output of a complete run: one startup line,
the per-candidate lines in listing order, one completion line, and nothing
else. -/
def claimedOutput (d : Dir) : List String :=
  startupLine :: (d.flatMap claimedEntryLines ++ [doneLine])

/-- C7: the console output of a complete run is exactly one startup line,
then per candidate file either the OK line or the FIX line followed by the
Compressed confirmation line, then one completion line, with no other
output forms. -/
theorem c7_output_forms (d : Dir) : runOutput d = claimedOutput d := by
  have h : entryLines = claimedEntryLines := by
    funext e
    by_cases hc : isCandidate e.name = true
    · by_cases hm : e.content.take 2 = gzipMagic
      · rw [entryLines_magic e hc hm]
        simp [claimedEntryLines, hc, hm]
      · rw [entryLines_fix e hc hm]
        simp [claimedEntryLines, hc, hm]
    · rw [entryLines_skip e hc]
      simp [claimedEntryLines, hc]
  rw [runOutput_eq, claimedOutput, h]

/-- C9: the final byte content of every file is independent of the order in
which the enumeration returns the entries: runs over any two permutations of
the listing produce permuted final states containing exactly the same
entries (each file's outcome depends only on its own initial content). -/
theorem c9_order_independence (d₁ d₂ : Dir) (h : d₁.Perm d₂) :
    (runDir d₁).Perm (runDir d₂) ∧
    ∀ e : DirEntry, e ∈ runDir d₁ ↔ e ∈ runDir d₂ := by
  have hp : (runDir d₁).Perm (runDir d₂) := by
    rw [runDir_eq_map, runDir_eq_map]
    exact h.map normEntry
  exact ⟨hp, fun e => hp.mem_iff⟩

theorem c9_order_independence_witness :
    (([⟨"a.frag", [1]⟩, ⟨"b.frag", [0x1f, 0x8b]⟩] : Dir).Perm
        [⟨"b.frag", [0x1f, 0x8b]⟩, ⟨"a.frag", [1]⟩]) ∧
    ((runDir [⟨"a.frag", [1]⟩, ⟨"b.frag", [0x1f, 0x8b]⟩]).Perm
        (runDir [⟨"b.frag", [0x1f, 0x8b]⟩, ⟨"a.frag", [1]⟩]) ∧
     ∀ e : DirEntry, e ∈ runDir [⟨"a.frag", [1]⟩, ⟨"b.frag", [0x1f, 0x8b]⟩]
        ↔ e ∈ runDir [⟨"b.frag", [0x1f, 0x8b]⟩, ⟨"a.frag", [1]⟩]) :=
  ⟨List.Perm.swap _ _ _, c9_order_independence _ _ (List.Perm.swap _ _ _)⟩

/-- Modelled from the spec: the source has no `try`/`except`, so which file
operations fail is decided by the runtime environment, not by the code.  The
environment says, per file name, whether reading that file fails, whether
writing the compressed stream to it fails, and what residual bytes a failed
write leaves behind (the spec: a crash between the read and the rewrite
"leaves the file empty or truncated"). -/
structure Env where
  readFails : String → Bool
  writeFails : String → Bool
  residual : String → Bytes

/-- The loop body under the failure environment: a failing read raises
before anything is written, leaving the entry untouched; a candidate that
already has the magic header performs no write, so a write failure cannot
affect it; a failing write raises after the rewrite began, leaving the
environment's residual bytes.  `Except.error` carries the entry's state at
the moment of the raise. -/
def stepE (env : Env) (e : DirEntry) : Except DirEntry (DirEntry × List String) :=
  if env.readFails e.name then Except.error e
  else if e.content.take 2 = gzipMagic then Except.ok (e, [okLine e.name])
  else if env.writeFails e.name then Except.error ⟨e.name, env.residual e.name⟩
  else Except.ok (⟨e.name, gzipCompress e.content⟩,
                  [fixLine e.name, compressedLine e.name])

/-- The loop under the failure environment.  The source catches nothing, so
the first raise aborts the loop: `Except.error` returns the directory state
at the abort — entries already visited keep their processed state, the
failing entry keeps the state `stepE` left it in, and everything after it is
untouched. -/
def runE (env : Env) : Dir → Except Dir Dir
  | [] => Except.ok []
  | e :: rest =>
    if isCandidate e.name then
      match stepE env e with
      | Except.error e' => Except.error (e' :: rest)
      | Except.ok (e', _) =>
        match runE env rest with
        | Except.ok d => Except.ok (e' :: d)
        | Except.error d => Except.error (e' :: d)
    else
      match runE env rest with
      | Except.ok d => Except.ok (e :: d)
      | Except.error d => Except.error (e :: d)

/-- Whether processing an entry raises under the environment: only
candidates are touched at all, and a candidate raises when its read fails,
or when it needs fixing and its write fails. -/
def entryFails (env : Env) (e : DirEntry) : Bool :=
  isCandidate e.name &&
    (env.readFails e.name ||
      (!(decide (e.content.take 2 = gzipMagic)) && env.writeFails e.name))

theorem stepE_ok (env : Env) (e : DirEntry) (hc : isCandidate e.name = true)
    (hf : entryFails env e = false) :
    stepE env e = Except.ok (normEntry e, entryLines e) := by
  have hr : env.readFails e.name = false := by
    cases h : env.readFails e.name with
    | false => rfl
    | true => simp [entryFails, hc, h] at hf
  by_cases hm : e.content.take 2 = gzipMagic
  · rw [stepE, if_neg (by simp [hr]), if_pos hm, normEntry_magic e hc hm,
      entryLines_magic e hc hm]
  · have hw : env.writeFails e.name = false := by
      cases h : env.writeFails e.name with
      | false => rfl
      | true => simp [entryFails, hc, hr, hm, h] at hf
    rw [stepE, if_neg (by simp [hr]), if_neg hm, if_neg (by simp [hw]),
      normEntry_fix e hc hm, entryLines_fix e hc hm]

theorem runE_ok (env : Env) (d : Dir)
    (h : ∀ x ∈ d, entryFails env x = false) :
    runE env d = Except.ok (runDir d) := by
  induction d with
  | nil => rfl
  | cons e rest ih =>
    have hrest := ih fun x hx => h x (List.mem_cons_of_mem e hx)
    have hdir : runDir (e :: rest) = normEntry e :: runDir rest := by
      rw [runDir_eq_map, runDir_eq_map, List.map_cons]
    by_cases hc : isCandidate e.name = true
    · rw [runE, if_pos hc, stepE_ok env e hc (h e (List.mem_cons_self e rest)),
        hrest, hdir]
    · rw [runE, if_neg hc, hrest, hdir, normEntry_skip e hc]

theorem entryFails_candidate (env : Env) (e : DirEntry)
    (hf : entryFails env e = true) : isCandidate e.name = true := by
  cases h : isCandidate e.name with
  | true => rfl
  | false => simp [entryFails, h] at hf

theorem stepE_fails (env : Env) (e : DirEntry)
    (hf : entryFails env e = true) :
    ∃ c : Bytes, stepE env e = Except.error ⟨e.name, c⟩ := by
  by_cases hr : env.readFails e.name = true
  · refine ⟨e.content, ?_⟩
    rw [stepE, if_pos hr]
  · have hc : isCandidate e.name = true := entryFails_candidate env e hf
    have hr0 : env.readFails e.name = false := by
      cases h : env.readFails e.name with
      | false => rfl
      | true => exact absurd h hr
    have hm : ¬ e.content.take 2 = gzipMagic := by
      intro hEq
      simp [entryFails, hc, hr0, hEq] at hf
    have hw : env.writeFails e.name = true := by
      cases h : env.writeFails e.name with
      | true => rfl
      | false => simp [entryFails, hc, hr0, h] at hf
    exact ⟨env.residual e.name,
      by rw [stepE, if_neg (by simp [hr0]), if_neg hm, if_pos hw]⟩

/-- C8: no error is caught or recovered: when processing some candidate
raises under the failure environment, the whole run aborts with every entry
before the failing one in its post-processing state, the failing entry in
whatever state the raise left it, and every entry after the failure point
untouched; and when nothing raises, the run completes with the normal
result. -/
theorem c8_error_propagation (env : Env) (d₁ d₂ : Dir) (e : DirEntry)
    (h₁ : ∀ x ∈ d₁, entryFails env x = false)
    (h₂ : entryFails env e = true) :
    (∃ c : Bytes, runE env (d₁ ++ e :: d₂)
        = Except.error (runDir d₁ ++ ({ name := e.name, content := c } : DirEntry) :: d₂)) ∧
    runE env d₁ = Except.ok (runDir d₁) := by
  refine ⟨?_, runE_ok env d₁ h₁⟩
  induction d₁ with
  | nil =>
    obtain ⟨c, hc⟩ := stepE_fails env e h₂
    refine ⟨c, ?_⟩
    have hcand := entryFails_candidate env e h₂
    rw [List.nil_append, runE, if_pos hcand, hc]
    rfl
  | cons x rest ih =>
    obtain ⟨c, hc⟩ := ih fun y hy => h₁ y (List.mem_cons_of_mem x hy)
    refine ⟨c, ?_⟩
    have hx := h₁ x (List.mem_cons_self x rest)
    have hdir : runDir (x :: rest) = normEntry x :: runDir rest := by
      rw [runDir_eq_map, runDir_eq_map, List.map_cons]
    by_cases hcx : isCandidate x.name = true
    · rw [List.cons_append, runE, if_pos hcx, stepE_ok env x hcx hx, hc, hdir,
        List.cons_append]
    · rw [List.cons_append, runE, if_neg hcx, hc, hdir, normEntry_skip x hcx,
        List.cons_append]

theorem c8_error_propagation_witness :
    (∀ x ∈ ([⟨"good.frag", [0x1f, 0x8b]⟩] : Dir),
        entryFails ⟨fun n => n = "bad.frag", fun _ => false, fun _ => []⟩ x = false) ∧
    entryFails ⟨fun n => n = "bad.frag", fun _ => false, fun _ => []⟩
        ⟨"bad.frag", [7]⟩ = true ∧
    ((∃ c : Bytes,
        runE ⟨fun n => n = "bad.frag", fun _ => false, fun _ => []⟩
            ([⟨"good.frag", [0x1f, 0x8b]⟩] ++ ⟨"bad.frag", [7]⟩ :: [⟨"later.frag", [9]⟩])
          = Except.error (runDir [⟨"good.frag", [0x1f, 0x8b]⟩]
              ++ ({ name := "bad.frag", content := c } : DirEntry) :: [⟨"later.frag", [9]⟩])) ∧
      runE ⟨fun n => n = "bad.frag", fun _ => false, fun _ => []⟩
          [⟨"good.frag", [0x1f, 0x8b]⟩]
        = Except.ok (runDir [⟨"good.frag", [0x1f, 0x8b]⟩])) :=
  ⟨by decide, by decide,
   c8_error_propagation ⟨fun n => n = "bad.frag", fun _ => false, fun _ => []⟩
     [⟨"good.frag", [0x1f, 0x8b]⟩] [⟨"later.frag", [9]⟩] ⟨"bad.frag", [7]⟩
     (by decide) (by decide)⟩

/-- C5 counterexample: a zero-byte candidate file does not make the 2-byte
read raise: under an environment with no genuine I/O failure, the run over a
directory holding only the empty `empty.frag` completes normally (no error
propagates) and compresses the file. -/
theorem c5_counterexample :
    runE ⟨fun _ => false, fun _ => false, fun _ => []⟩ [⟨"empty.frag", []⟩]
      = Except.ok [⟨"empty.frag", [0x1f, 0x8b]⟩] ∧
    normalize [⟨"empty.frag", []⟩]
      = ([⟨"empty.frag", [0x1f, 0x8b]⟩],
         [startupLine, fixLine "empty.frag", compressedLine "empty.frag", doneLine]) := by
  constructor
  · rfl
  · rfl

/-- C5 amended: for a candidate file shorter than 2 bytes, the 2-byte read
returns the short byte string and raises nothing (absent a genuine I/O
failure of the environment): the step classifies the file as not gzipped and
compresses it in place, and the run continues. -/
theorem c5_short_read_no_error (env : Env) (e : DirEntry)
    (hr : env.readFails e.name = false) (hw : env.writeFails e.name = false)
    (h : e.content.length < 2) :
    stepE env e = Except.ok (⟨e.name, gzipCompress e.content⟩,
                             [fixLine e.name, compressedLine e.name]) := by
  have hm : ¬ e.content.take 2 = gzipMagic := by
    intro hEq
    have hlen := congrArg List.length hEq
    simp only [List.length_take, gzipMagic, List.length_cons, List.length_nil] at hlen
    omega
  rw [stepE, if_neg (by simp [hr]), if_neg hm, if_neg (by simp [hw])]

theorem c5_short_read_no_error_witness :
    (⟨fun _ => false, fun _ => false, fun _ => []⟩ : Env).readFails "empty.frag" = false ∧
    (⟨fun _ => false, fun _ => false, fun _ => []⟩ : Env).writeFails "empty.frag" = false ∧
    (([] : Bytes).length < 2 ∧
     stepE ⟨fun _ => false, fun _ => false, fun _ => []⟩ ⟨"empty.frag", []⟩
       = Except.ok (⟨"empty.frag", gzipCompress []⟩,
                    [fixLine "empty.frag", compressedLine "empty.frag"])) :=
  ⟨rfl, rfl, by decide,
   c5_short_read_no_error ⟨fun _ => false, fun _ => false, fun _ => []⟩
     ⟨"empty.frag", []⟩ rfl rfl (by decide)⟩

end FixCompression
